import Mathlib

/-!
Verification of the sectioned blocklist builder (scripts/build_list.py).

The script merges normalized raw entries into one section of a sectioned
text document.  We embed its core shallowly:

* file contents are `String`s; reading a file into lines is modelled by
  splitting the content at newline characters (Python `readlines`, whose
  trailing-newline terminators are immaterial because every consumer
  strips each line before inspecting it);
* `parse_line`, `parse_target`, `write_data` and the merge logic of
  `main` are translated clause by clause;
* Python `dict` (insertion ordered, unique keys) becomes an association
  list `Doc` with `lookupAssoc` / `updAssoc` (assign: update in place or
  append) / `modAssoc` (mutate the value of an existing key);
* `set(...)` followed by `sorted(...)` becomes deduplication followed by
  insertion sort under the lexicographic order on `String`, which matches
  Python's code-point order on `str`;
* the substitution resource (`subs.json`) is an external input, modelled
  as `Except String Subs`: `.error` means `load_subs` raises.
-/

namespace BuildList

/-- Characters stripped by Python `str.strip()`. -/
def isPySpace (c : Char) : Bool :=
  c = ' ' || c = '\t' || c = '\n' || c = '\r' || c = '\x0b' || c = '\x0c'

/-- Python `str.strip()` on a character list. -/
def pyStripL (l : List Char) : List Char :=
  ((l.dropWhile isPySpace).reverse.dropWhile isPySpace).reverse

/-- Python `str.strip()`. -/
def pyStrip (s : String) : String := String.mk (pyStripL s.data)

/-- Python `str.split(sep)` for a single-character separator: split at every
occurrence, keeping empty pieces.  The result is always nonempty. -/
def splitOnChar (sep : Char) : List Char → List (List Char)
  | [] => [[]]
  | c :: rest =>
    if c = sep then [] :: splitOnChar sep rest
    else
      match splitOnChar sep rest with
      | [] => [[c]]
      | l :: ls => (c :: l) :: ls

/-- Split file content into lines (one piece per newline, plus the tail). -/
def splitLines (cs : List Char) : List (List Char) := splitOnChar '\n' cs

/-- Python `f.readlines()`, with the line terminators already dropped
(every consumer of a line strips it, or is insensitive to a trailing
newline, before using it).  `readlines` produces no final empty line when
the content ends with a newline, hence the `dropLast`. -/
def pyReadlines (cs : List Char) : List (List Char) :=
  let ls := splitLines cs
  if ls.getLast? = some [] then ls.dropLast else ls

/-- Python `str.endswith(p)` / suffix test on character lists. -/
def sfxL (p l : List Char) : Bool := p.reverse.isPrefixOf l.reverse

/-- One pass of Python `str.replace(pat, rep)` for a nonempty pattern:
scan left to right, replacing non-overlapping occurrences.  The `Nat`
argument is a structural-recursion fuel; every recursive call consumes at
least one character of the list, so any fuel of at least the list's length
yields the replace semantics. -/
def pyReplaceAux (pat rep : List Char) : Nat → List Char → List Char
  | _, [] => []
  | 0, s => s
  | fuel + 1, c :: rest =>
    if pat ≠ [] ∧ pat.isPrefixOf (c :: rest) then
      rep ++ pyReplaceAux pat rep fuel (rest.drop (pat.length - 1))
    else
      c :: pyReplaceAux pat rep fuel rest

/-- Python `s.replace(pat, rep)`.  An empty pattern inserts the
replacement before every character and at the end (CPython semantics). -/
def pyReplace (s pat rep : String) : String :=
  if pat.data = [] then
    String.mk (rep.data ++ (s.data.map (fun c => c :: rep.data)).flatten)
  else
    String.mk (pyReplaceAux pat.data rep.data s.data.length s.data)

/-- The substitution map, in iteration order (`load_subs` result). -/
abbrev Subs := List (String × String)

/-- `parse_line`: keep the part up to the first space if the line contains
a space, strip, then apply every substitution in map order. -/
def parse_line (subs : Subs) (line0 : String) : String :=
  let line1 :=
    if line0.data.contains ' ' then String.mk ((splitOnChar ' ' line0.data).headD [])
    else line0
  let line2 := pyStrip line1
  subs.foldl (fun l p => pyReplace l p.1 p.2) line2

/-- One section of the target document: `{'items': [...], 'comments': [...]}`. -/
structure SectionData where
  items : List String
  comments : List String
deriving DecidableEq

/-- The parsed target document: a Python dict as an insertion-ordered
association list with unique keys. -/
abbrev Doc := List (String × SectionData)

/-- Python dict lookup. -/
def lookupAssoc (k : String) : Doc → Option SectionData
  | [] => none
  | (k', v) :: rest => if k' = k then some v else lookupAssoc k rest

/-- Python dict assignment `d[k] = v`: replace in place if the key exists,
otherwise append at the end. -/
def updAssoc (k : String) (v : SectionData) : Doc → Doc
  | [] => [(k, v)]
  | (k', v') :: rest =>
    if k' = k then (k, v) :: rest else (k', v') :: updAssoc k v rest

/-- In-place mutation of the value at an existing key
(`d[k]['items'].append(...)` and friends). -/
def modAssoc (k : String) (f : SectionData → SectionData) : Doc → Doc
  | [] => []
  | (k', v') :: rest =>
    if k' = k then (k', f v') :: rest else (k', v') :: modAssoc k f rest

/-- State of the `parse_target` loop: the accumulated dict and the
`current_section_name` cursor. -/
structure ParseState where
  result : Doc
  current : Option String
deriving DecidableEq

/-- Python truthiness of `current_section_name`: `None` and the empty
string are falsy. -/
def truthy : Option String → Bool
  | none => false
  | some n => !(n == "")

/-- One iteration of the `parse_target` loop on a raw line. -/
def parse_step (st : ParseState) (raw : List Char) : ParseState :=
  let line := pyStripL raw
  if "###".data.isPrefixOf line && sfxL "domains start".data line then
    match (splitOnChar ' ' line).get? 1 with
    | some nm =>
      { result := updAssoc (String.mk nm) ⟨[], []⟩ st.result,
        current := some (String.mk nm) }
    | none => st
  else if "###".data.isPrefixOf line && sfxL "domains end".data line then
    { st with current := none }
  else if "#".data.isPrefixOf line && truthy st.current then
    match st.current with
    | some nm =>
      { st with result :=
          modAssoc nm (fun d => { d with comments := d.comments ++ [String.mk line] }) st.result }
    | none => st
  else if !line.isEmpty && truthy st.current then
    match st.current with
    | some nm =>
      { st with result :=
          modAssoc nm (fun d => { d with items := d.items ++ [String.mk (pyStripL line)] }) st.result }
    | none => st
  else st

/-- `parse_target` on the content of the target file. -/
def parse_target (content : String) : Doc :=
  ((pyReadlines content.data).foldl parse_step ⟨[], none⟩).result

/-- The writer's per-line guard: append a newline unless one is present. -/
def endNl (l : String) : String := if sfxL ['\n'] l.data then l else l ++ "\n"

/-- The chunk `write_data` emits for one section. -/
def write_section (name : String) (d : SectionData) : String :=
  "\n### " ++ name ++ " domains start\n"
    ++ String.join (d.comments.map endNl)
    ++ "\n"
    ++ String.join (d.items.map endNl)
    ++ "\n### " ++ name ++ " domains end\n"

/-- `write_data`: full rewrite of the target from the document. -/
def write_data (doc : Doc) : String :=
  String.join (doc.map fun p => write_section p.1 p.2)

/-- Lexicographic comparison of character lists by code point, the order
Python uses on `str`. -/
def lexLe : List Char → List Char → Bool
  | [], _ => true
  | _ :: _, [] => false
  | a :: as, b :: bs =>
    if a.toNat < b.toNat then true
    else if b.toNat < a.toNat then false
    else lexLe as bs

/-- Python string order `s <= t` (code-point lexicographic). -/
def strLe (s t : String) : Prop := lexLe s.data t.data = true

/-- Python string order `s < t`. -/
def strLt (s t : String) : Prop := strLe s t ∧ s ≠ t

instance : DecidableRel strLe := fun s t => by
  unfold strLe; infer_instance

instance : DecidableRel strLt := fun s t => by
  unfold strLt strLe; exact instDecidableAnd

/-- `sorted(set(base) | set(new))`: the canonical ascending, duplicate-free
materialization of the union, as a list. -/
def sorted_union (base new : List String) : List String :=
  ((base ++ new).dedup).insertionSort strLe

/-- The merge performed by `main` once the target is parsed: ensure the
section exists, union its items with the new entries, store the sorted
result, and report `updated_count - initial_record_count`. -/
def main_core (sectionName : String) (new_data : List String) (doc0 : Doc) :
    Doc × Int :=
  let st :=
    match lookupAssoc sectionName doc0 with
    | some d => (doc0, (d.items.length : Int))
    | none => (updAssoc sectionName ⟨[], []⟩ doc0, (0 : Int))
  let base_items := ((lookupAssoc sectionName st.1).map SectionData.items).getD []
  let sorted_entries := sorted_union base_items new_data
  let doc1 := modAssoc sectionName (fun d => { d with items := sorted_entries }) st.1
  (doc1, (sorted_entries.length : Int) - st.2)

/-- `load_new_data`: map `parse_line` over the source lines.  The whole
body runs inside `try/except Exception`: an unreadable source file
(`src = none`) or a failing `load_subs` call inside `parse_line`
(`subs = .error`) is logged and yields the empty list. -/
def load_new_data (subs : Except String Subs) (src : Option String) :
    List String :=
  match src with
  | none => []
  | some content =>
    match subs with
    | .ok m => (pyReadlines content.data).map fun l => parse_line m (String.mk l)
    | .error _ => []

/-- One run of `main` past the CLI and bootstrap: the target file exists
with content `targetContent`.  No exception escapes: `load_new_data`
catches everything raised while loading and normalizing the source
(including `load_subs` failures), so the run always reaches `write_data`.
The result is the new target content and the reported count delta. -/
def run (subs : Except String Subs) (src : Option String)
    (targetContent : String) (sectionName : String) :
    Except String (String × Int) :=
  let new_lines := load_new_data subs src
  let doc := parse_target targetContent
  let r := main_core sectionName new_lines doc
  .ok (write_data r.1, r.2)

/-! ### Order facts about the Python string order -/

theorem char_eq_of_toNat_eq {a b : Char} (h : a.toNat = b.toNat) : a = b :=
  Char.ext (UInt32.ext h)

theorem lexLe_refl : ∀ l : List Char, lexLe l l = true
  | [] => rfl
  | a :: as => by simp [lexLe, lexLe_refl as]

theorem lexLe_total : ∀ a b : List Char, lexLe a b = true ∨ lexLe b a = true
  | [], _ => .inl rfl
  | _ :: _, [] => .inr rfl
  | a :: as, b :: bs => by
    rcases Nat.lt_trichotomy a.toNat b.toNat with h | h | h
    · left; simp [lexLe, h]
    · rcases lexLe_total as bs with ih | ih
      · left; simp [lexLe, h, ih]
      · right; simp [lexLe, h.symm, ih]
    · right; simp [lexLe, h]

theorem lexLe_antisymm : ∀ a b : List Char,
    lexLe a b = true → lexLe b a = true → a = b
  | [], [], _, _ => rfl
  | [], _ :: _, _, h => by simp [lexLe] at h
  | _ :: _, [], h, _ => by simp [lexLe] at h
  | a :: as, b :: bs, h1, h2 => by
    rcases Nat.lt_trichotomy a.toNat b.toNat with h | h | h
    · simp [lexLe, h, Nat.lt_asymm h] at h2
    · have hab : a = b := char_eq_of_toNat_eq h
      subst hab
      simp [lexLe] at h1 h2
      rw [lexLe_antisymm as bs h1 h2]
    · simp [lexLe, h, Nat.lt_asymm h] at h1

theorem lexLe_trans : ∀ a b c : List Char,
    lexLe a b = true → lexLe b c = true → lexLe a c = true
  | [], _, _, _, _ => rfl
  | _ :: _, [], _, h, _ => by simp [lexLe] at h
  | _ :: _, _ :: _, [], _, h => by simp [lexLe] at h
  | a :: as, b :: bs, c :: cs, h1, h2 => by
    by_cases hab : a.toNat < b.toNat
    · by_cases hbc : b.toNat < c.toNat
      · simp [lexLe, Nat.lt_trans hab hbc]
      · by_cases hcb : c.toNat < b.toNat
        · simp [lexLe, hbc, hcb] at h2
        · have hac : a.toNat < c.toNat := by omega
          simp [lexLe, hac]
    · by_cases hba : b.toNat < a.toNat
      · simp [lexLe, hab, hba] at h1
      · by_cases hbc : b.toNat < c.toNat
        · have hac : a.toNat < c.toNat := by omega
          simp [lexLe, hac]
        · by_cases hcb : c.toNat < b.toNat
          · simp [lexLe, hbc, hcb] at h2
          · have h1' : lexLe as bs = true := by simpa [lexLe, hab, hba] using h1
            have h2' : lexLe bs cs = true := by simpa [lexLe, hbc, hcb] using h2
            have hac : ¬ a.toNat < c.toNat := by omega
            have hca : ¬ c.toNat < a.toNat := by omega
            simp [lexLe, hac, hca, lexLe_trans as bs cs h1' h2']

instance : IsTotal String strLe := ⟨fun s t => lexLe_total s.data t.data⟩

instance : IsTrans String strLe := ⟨fun _ _ _ h1 h2 => lexLe_trans _ _ _ h1 h2⟩

instance : IsAntisymm String strLe :=
  ⟨fun s t h1 h2 => String.ext (lexLe_antisymm s.data t.data h1 h2)⟩

instance : IsRefl String strLe := ⟨fun s => lexLe_refl s.data⟩

instance : IsIrrefl String strLt := ⟨fun _ h => h.2 rfl⟩

theorem sorted_union_sorted (base new : List String) :
    (sorted_union base new).Sorted strLe :=
  List.sorted_insertionSort strLe _

theorem sorted_union_nodup (base new : List String) :
    (sorted_union base new).Nodup := by
  unfold sorted_union
  exact (List.perm_insertionSort strLe _).symm.nodup (List.nodup_dedup _)

theorem mem_sorted_union {x : String} {base new : List String} :
    x ∈ sorted_union base new ↔ x ∈ base ∨ x ∈ new := by
  unfold sorted_union
  rw [(List.perm_insertionSort strLe _).mem_iff, List.mem_dedup, List.mem_append]

theorem sorted_union_sorted_lt (base new : List String) :
    (sorted_union base new).Sorted strLt := by
  have h1 := sorted_union_sorted base new
  have h2 := sorted_union_nodup base new
  exact List.Pairwise.and h1 h2

/-- Canonicality: two ascending duplicate-free lists with the same members
are equal; hence `sorted_union` only depends on the member set. -/
theorem sorted_union_eq_of_mem_iff {b1 n1 b2 n2 : List String}
    (h : ∀ x, (x ∈ b1 ∨ x ∈ n1) ↔ (x ∈ b2 ∨ x ∈ n2)) :
    sorted_union b1 n1 = sorted_union b2 n2 := by
  apply List.eq_of_perm_of_sorted _ (sorted_union_sorted b1 n1) (sorted_union_sorted b2 n2)
  rw [List.perm_ext_iff_of_nodup (sorted_union_nodup b1 n1) (sorted_union_nodup b2 n2)]
  intro a
  rw [mem_sorted_union, mem_sorted_union]
  exact h a

/-! ### Association-list facts -/

theorem lookup_updAssoc_self (k : String) (v : SectionData) :
    ∀ l : Doc, lookupAssoc k (updAssoc k v l) = some v
  | [] => by simp [updAssoc, lookupAssoc]
  | (k', v') :: rest => by
    by_cases h : k' = k
    · simp [updAssoc, h, lookupAssoc]
    · simp [updAssoc, h, lookupAssoc, lookup_updAssoc_self k v rest]

theorem lookup_updAssoc_ne {k k' : String} (v : SectionData) (h : k' ≠ k) :
    ∀ l : Doc, lookupAssoc k' (updAssoc k v l) = lookupAssoc k' l
  | [] => by
    have hk : k ≠ k' := fun hh => h hh.symm
    simp [updAssoc, lookupAssoc, hk]
  | (k0, v0) :: rest => by
    by_cases h0 : k0 = k
    · have hk : k ≠ k' := fun hh => h hh.symm
      have hk0 : k0 ≠ k' := by rw [h0]; exact hk
      simp [updAssoc, h0, lookupAssoc, hk, hk0]
    · simp [updAssoc, h0, lookupAssoc, lookup_updAssoc_ne v h rest]

theorem lookup_modAssoc_self (k : String) (f : SectionData → SectionData) :
    ∀ l : Doc, lookupAssoc k (modAssoc k f l) = (lookupAssoc k l).map f
  | [] => by simp [modAssoc, lookupAssoc]
  | (k', v') :: rest => by
    by_cases h : k' = k
    · simp [modAssoc, h, lookupAssoc]
    · simp [modAssoc, h, lookupAssoc, lookup_modAssoc_self k f rest]

theorem lookup_modAssoc_ne {k k' : String} (f : SectionData → SectionData) (h : k' ≠ k) :
    ∀ l : Doc, lookupAssoc k' (modAssoc k f l) = lookupAssoc k' l
  | [] => by simp [modAssoc, lookupAssoc]
  | (k0, v0) :: rest => by
    by_cases h0 : k0 = k
    · have hk : k ≠ k' := fun hh => h hh.symm
      have hk0 : k0 ≠ k' := by rw [h0]; exact hk
      simp [modAssoc, h0, lookupAssoc, hk, hk0]
    · simp [modAssoc, h0, lookupAssoc, lookup_modAssoc_ne f h rest]

theorem keys_modAssoc (k : String) (f : SectionData → SectionData) :
    ∀ l : Doc, (modAssoc k f l).map Prod.fst = l.map Prod.fst
  | [] => rfl
  | (k', v') :: rest => by
    by_cases h : k' = k <;> simp [modAssoc, h, keys_modAssoc k f rest]

theorem mem_updAssoc {k : String} {v : SectionData} {p : String × SectionData} :
    ∀ {l : Doc}, p ∈ updAssoc k v l → p = (k, v) ∨ p ∈ l
  | [], h => by simpa [updAssoc] using h
  | (k', v') :: rest, h => by
    by_cases h0 : k' = k
    · simp [updAssoc, h0] at h
      rcases h with h | h
      · exact .inl (by simp [h])
      · exact .inr (.tail _ h)
    · simp [updAssoc, h0] at h
      rcases h with h | h
      · exact .inr (by simp [h])
      · rcases mem_updAssoc h with h | h
        · exact .inl h
        · exact .inr (.tail _ h)

theorem mem_modAssoc {k : String} {f : SectionData → SectionData}
    {p : String × SectionData} :
    ∀ {l : Doc}, p ∈ modAssoc k f l → p ∈ l ∨ ∃ d, (k, d) ∈ l ∧ p = (k, f d)
  | [], h => by simp [modAssoc] at h
  | (k', v') :: rest, h => by
    by_cases h0 : k' = k
    · subst h0
      simp [modAssoc] at h
      rcases h with h | h
      · exact .inr ⟨v', by simp, by simp [h]⟩
      · exact .inl (.tail _ h)
    · simp [modAssoc, h0] at h
      rcases h with h | h
      · exact .inl (by simp [h])
      · rcases mem_modAssoc h with h | ⟨d, hd, hp⟩
        · exact .inl (.tail _ h)
        · exact .inr ⟨d, .tail _ hd, hp⟩

theorem updAssoc_notmem {k : String} (v : SectionData) :
    ∀ {l : Doc}, k ∉ l.map Prod.fst → updAssoc k v l = l ++ [(k, v)]
  | [], _ => rfl
  | (k', v') :: rest, h => by
    have h1 : k' ≠ k := fun hh => h (by rw [List.map_cons, ← hh]; exact List.mem_cons_self _ _)
    have h2 : k ∉ rest.map Prod.fst := fun hh =>
      h (by rw [List.map_cons]; exact List.mem_cons_of_mem _ hh)
    simp [updAssoc, h1, updAssoc_notmem v h2]

theorem modAssoc_append_last {k : String} (f : SectionData → SectionData)
    (d : SectionData) :
    ∀ {pre : Doc}, k ∉ pre.map Prod.fst →
      modAssoc k f (pre ++ [(k, d)]) = pre ++ [(k, f d)]
  | [], _ => by simp [modAssoc]
  | (k', v') :: rest, h => by
    have h1 : k' ≠ k := fun hh => h (by rw [List.map_cons, ← hh]; exact List.mem_cons_self _ _)
    have h2 : k ∉ rest.map Prod.fst := fun hh =>
      h (by rw [List.map_cons]; exact List.mem_cons_of_mem _ hh)
    simp [modAssoc, h1]
    exact modAssoc_append_last f d h2

theorem modAssoc_eq_self {k : String} {f : SectionData → SectionData} :
    ∀ {l : Doc}, (∀ d, lookupAssoc k l = some d → f d = d) → modAssoc k f l = l
  | [], _ => rfl
  | (k', v') :: rest, h => by
    by_cases h0 : k' = k
    · subst h0
      have : f v' = v' := h v' (by simp [lookupAssoc])
      simp [modAssoc, this]
    · have : ∀ d, lookupAssoc k rest = some d → f d = d := by
        intro d hd; exact h d (by simpa [lookupAssoc, h0] using hd)
      simp [modAssoc, h0, modAssoc_eq_self this]

theorem mem_keys_updAssoc {x k : String} (v : SectionData) :
    ∀ {l : Doc}, x ∈ (updAssoc k v l).map Prod.fst → x ∈ l.map Prod.fst ∨ x = k
  | [], h => by
    simp [updAssoc] at h
    exact .inr h
  | (k', v') :: rest, h => by
    by_cases h0 : k' = k
    · simp [updAssoc, h0] at h
      rcases h with h | h
      · exact .inr h
      · exact .inl (by simp; exact .inr h)
    · simp only [updAssoc, if_neg h0, List.map_cons, List.mem_cons] at h
      rcases h with h | h
      · exact .inl (by simp [h])
      · rcases mem_keys_updAssoc v h with h | h
        · exact .inl (by simp; exact .inr (by simpa using h))
        · exact .inr h

theorem nodup_keys_updAssoc {k : String} (v : SectionData) :
    ∀ {l : Doc}, (l.map Prod.fst).Nodup → ((updAssoc k v l).map Prod.fst).Nodup
  | [], _ => by simp [updAssoc]
  | (k', v') :: rest, h => by
    rw [List.map_cons, List.nodup_cons] at h
    by_cases h0 : k' = k
    · subst h0
      have e : updAssoc k' v ((k', v') :: rest) = (k', v) :: rest := by simp [updAssoc]
      rw [e, List.map_cons, List.nodup_cons]
      exact h
    · simp only [updAssoc, if_neg h0, List.map_cons, List.nodup_cons]
      constructor
      · intro hmem
        rcases mem_keys_updAssoc v hmem with hh | hh
        · exact h.1 hh
        · exact h0 hh
      · exact nodup_keys_updAssoc v h.2

theorem lookup_split {n : String} {d : SectionData} :
    ∀ {l : Doc}, lookupAssoc n l = some d →
      ∃ pre post, l = pre ++ (n, d) :: post ∧ n ∉ pre.map Prod.fst
  | [], h => by simp [lookupAssoc] at h
  | (k', v') :: rest, h => by
    by_cases h0 : k' = n
    · subst h0
      simp [lookupAssoc] at h
      exact ⟨[], rest, by simp [h], by simp⟩
    · simp [lookupAssoc, h0] at h
      rcases lookup_split h with ⟨pre, post, heq, hnot⟩
      have hnk : n ≠ k' := fun hh => h0 hh.symm
      exact ⟨(k', v') :: pre, post, by simp [heq], by simp [hnot, hnk]⟩

theorem lookup_eq_some_of_mem_keys {k : String} :
    ∀ {l : Doc}, k ∈ l.map Prod.fst → ∃ d, lookupAssoc k l = some d
  | [], h => by simp at h
  | (k', v') :: rest, h => by
    by_cases h0 : k' = k
    · exact ⟨v', by simp [lookupAssoc, h0]⟩
    · rw [List.map_cons, List.mem_cons] at h
      rcases h with h | h
      · exact absurd h.symm h0
      · rcases lookup_eq_some_of_mem_keys h with ⟨d, hd⟩
        exact ⟨d, by simpa [lookupAssoc, h0] using hd⟩

theorem mem_keys_of_lookup {k : String} {d : SectionData} :
    ∀ {l : Doc}, lookupAssoc k l = some d → k ∈ l.map Prod.fst
  | [], h => by simp [lookupAssoc] at h
  | (k', v') :: rest, h => by
    by_cases h0 : k' = k
    · rw [List.map_cons, h0]
      exact List.mem_cons_self _ _
    · simp [lookupAssoc, h0] at h
      rw [List.map_cons]
      exact List.mem_cons_of_mem _ (mem_keys_of_lookup h)

/-! ### splitOnChar facts -/

theorem splitOnChar_ne_nil (sep : Char) : ∀ l, splitOnChar sep l ≠ []
  | [] => by simp [splitOnChar]
  | c :: rest => by
    by_cases h : c = sep
    · simp [splitOnChar, h]
    · simp only [splitOnChar, if_neg h]
      cases hs : splitOnChar sep rest with
      | nil => simp
      | cons l ls => simp

theorem splitOnChar_no_sep (sep : Char) :
    ∀ {l : List Char}, sep ∉ l → splitOnChar sep l = [l]
  | [], _ => rfl
  | c :: rest, h => by
    have hc : ¬ c = sep := fun hh => h (hh ▸ List.mem_cons_self _ _)
    have hr : sep ∉ rest := fun hh => h (List.mem_cons_of_mem _ hh)
    simp only [splitOnChar, if_neg hc, splitOnChar_no_sep sep hr]

theorem splitOnChar_append (sep : Char) (b : List Char) :
    ∀ {a : List Char}, sep ∉ a →
      splitOnChar sep (a ++ sep :: b) = a :: splitOnChar sep b
  | [], _ => by simp [splitOnChar]
  | c :: rest, h => by
    have hc : ¬ c = sep := fun hh => h (hh ▸ List.mem_cons_self _ _)
    have hr : sep ∉ rest := fun hh => h (List.mem_cons_of_mem _ hh)
    rw [List.cons_append]
    simp only [splitOnChar, if_neg hc, splitOnChar_append sep b hr]

theorem mem_splitOnChar (sep : Char) :
    ∀ (l : List Char) {x : List Char}, x ∈ splitOnChar sep l →
      ∀ c ∈ x, c ∈ l ∧ c ≠ sep
  | [], x, hx => by
    simp [splitOnChar] at hx
    subst hx
    intro c hc
    simp at hc
  | a :: rest, x, hx => by
    intro c hc
    by_cases h : a = sep
    · simp only [splitOnChar, if_pos h] at hx
      rcases List.mem_cons.mp hx with hx | hx
      · subst hx; simp at hc
      · rcases mem_splitOnChar sep rest hx c hc with ⟨h1, h2⟩
        exact ⟨List.mem_cons_of_mem _ h1, h2⟩
    · simp only [splitOnChar, if_neg h] at hx
      cases hs : splitOnChar sep rest with
      | nil => exact absurd hs (splitOnChar_ne_nil sep rest)
      | cons y ys =>
        rw [hs] at hx
        rcases List.mem_cons.mp hx with hx | hx
        · subst hx
          rcases List.mem_cons.mp hc with hc | hc
          · subst hc; exact ⟨List.mem_cons_self _ _, h⟩
          · have hy : y ∈ splitOnChar sep rest := by
              rw [hs]; exact List.mem_cons_self _ _
            rcases mem_splitOnChar sep rest hy c hc with ⟨h1, h2⟩
            exact ⟨List.mem_cons_of_mem _ h1, h2⟩
        · have hmem : x ∈ splitOnChar sep rest := by
            rw [hs]; exact List.mem_cons_of_mem _ hx
          rcases mem_splitOnChar sep rest hmem c hc with ⟨h1, h2⟩
          exact ⟨List.mem_cons_of_mem _ h1, h2⟩

theorem splitOnChar_headD (sep : Char) :
    ∀ l : List Char, (splitOnChar sep l).headD [] = l.takeWhile (fun c => c != sep)
  | [] => rfl
  | c :: rest => by
    by_cases h : c = sep
    · simp [splitOnChar, h, List.takeWhile_cons]
    · simp only [splitOnChar, if_neg h]
      cases hs : splitOnChar sep rest with
      | nil => exact absurd hs (splitOnChar_ne_nil sep rest)
      | cons y ys =>
        have ih := splitOnChar_headD sep rest
        rw [hs] at ih
        simp only [List.headD_cons] at ih
        simp [List.takeWhile_cons, h, ih]

theorem splitOnChar_of_mem_sep (sep : Char) :
    ∀ {l : List Char}, sep ∈ l → ∃ x y rest, splitOnChar sep l = x :: y :: rest
  | [], h => by simp at h
  | c :: r, h => by
    by_cases hc : c = sep
    · cases hs : splitOnChar sep r with
      | nil => exact absurd hs (splitOnChar_ne_nil sep r)
      | cons y ys => exact ⟨[], y, ys, by simp [splitOnChar, hc, hs]⟩
    · have hr : sep ∈ r := by
        rcases List.mem_cons.mp h with h | h
        · exact absurd h.symm hc
        · exact h
      rcases splitOnChar_of_mem_sep sep hr with ⟨x, y, rest, hs⟩
      exact ⟨c :: x, y, rest, by simp [splitOnChar, hc, hs]⟩

/-! ### Strip facts -/

theorem dropWhile_head?_false {p : Char → Bool} :
    ∀ {l : List Char} {c : Char}, (l.dropWhile p).head? = some c → p c = false
  | [], c, h => by simp [List.dropWhile] at h
  | a :: rest, c, h => by
    by_cases ha : p a
    · rw [List.dropWhile_cons, if_pos ha] at h
      exact dropWhile_head?_false h
    · rw [List.dropWhile_cons, if_neg ha] at h
      simp at h
      rw [← h]
      simpa using ha

theorem dropWhile_isSuffix (p : Char → Bool) :
    ∀ l : List Char, ∃ t, t ++ l.dropWhile p = l
  | [] => ⟨[], rfl⟩
  | a :: rest => by
    by_cases ha : p a
    · rcases dropWhile_isSuffix p rest with ⟨t, ht⟩
      exact ⟨a :: t, by simp [List.dropWhile_cons, ha, ht]⟩
    · exact ⟨[], by simp [List.dropWhile_cons, ha]⟩

/-- A character list has no leading and no trailing `p`-character. -/
def noEdge (p : Char → Bool) (l : List Char) : Prop :=
  (∀ c, l.head? = some c → p c = false) ∧ (∀ c, l.getLast? = some c → p c = false)

theorem dropWhile_eq_self_of_head {p : Char → Bool} {l : List Char}
    (h : ∀ c, l.head? = some c → p c = false) : l.dropWhile p = l := by
  cases l with
  | nil => rfl
  | cons a rest =>
    have := h a (by simp)
    rw [List.dropWhile_cons, if_neg (by simp [this])]

theorem pyStripL_eq_self {l : List Char} (h : noEdge isPySpace l) : pyStripL l = l := by
  unfold pyStripL
  rw [dropWhile_eq_self_of_head h.1]
  have hrev : ∀ c, l.reverse.head? = some c → isPySpace c = false := by
    intro c hc
    rw [List.head?_reverse] at hc
    exact h.2 c hc
  rw [dropWhile_eq_self_of_head hrev, List.reverse_reverse]

theorem pyStripL_noEdge (l : List Char) : noEdge isPySpace (pyStripL l) := by
  unfold pyStripL
  constructor
  · intro c hc
    rw [List.head?_reverse] at hc
    rcases dropWhile_isSuffix isPySpace (l.dropWhile isPySpace).reverse with ⟨t, ht⟩
    have hy : (l.dropWhile isPySpace).reverse.getLast? = some c := by
      rw [← ht, List.getLast?_append, hc]
      rfl
    rw [List.getLast?_reverse] at hy
    exact dropWhile_head?_false hy
  · intro c hc
    rw [List.getLast?_reverse] at hc
    exact dropWhile_head?_false hc

theorem pyStripL_idem (l : List Char) : pyStripL (pyStripL l) = pyStripL l :=
  pyStripL_eq_self (pyStripL_noEdge l)

theorem mem_pyStripL {c : Char} {l : List Char} (h : c ∈ pyStripL l) : c ∈ l := by
  unfold pyStripL at h
  rw [List.mem_reverse] at h
  rcases dropWhile_isSuffix isPySpace (l.dropWhile isPySpace).reverse with ⟨t, ht⟩
  have h2 : c ∈ (l.dropWhile isPySpace).reverse := by
    rw [← ht]; exact List.mem_append_right t h
  rw [List.mem_reverse] at h2
  rcases dropWhile_isSuffix isPySpace l with ⟨t2, ht2⟩
  rw [← ht2]
  exact List.mem_append_right t2 h2

theorem pyStripL_all_space {l : List Char} (h : ∀ c ∈ l, isPySpace c = true) :
    pyStripL l = [] := by
  unfold pyStripL
  have h1 : l.dropWhile isPySpace = [] := by
    rw [List.dropWhile_eq_nil_iff]
    intro c hc
    exact h c hc
  rw [h1]
  rfl

/-! ### Suffix facts -/

theorem isPrefixOf_ex : ∀ {p l : List Char}, p.isPrefixOf l = true ↔ ∃ t, l = p ++ t
  | [], l => by simp [List.isPrefixOf]
  | a :: as, [] => by simp [List.isPrefixOf]
  | a :: as, b :: bs => by
    simp only [List.isPrefixOf, Bool.and_eq_true, beq_iff_eq]
    constructor
    · rintro ⟨h1, h2⟩
      rcases isPrefixOf_ex.mp h2 with ⟨t, ht⟩
      exact ⟨t, by simp [h1, ht]⟩
    · rintro ⟨t, ht⟩
      rw [List.cons_append] at ht
      injection ht with h1 h2
      exact ⟨h1.symm, isPrefixOf_ex.mpr ⟨t, h2⟩⟩

theorem sfxL_ex {p l : List Char} : sfxL p l = true ↔ ∃ t, l = t ++ p := by
  unfold sfxL
  rw [isPrefixOf_ex]
  constructor
  · rintro ⟨t, ht⟩
    refine ⟨t.reverse, ?_⟩
    have h2 := congrArg List.reverse ht
    simpa using h2
  · rintro ⟨t, ht⟩
    exact ⟨t.reverse, by simp [ht]⟩

theorem sfxL_append (p t : List Char) : sfxL p (t ++ p) = true :=
  sfxL_ex.mpr ⟨t, rfl⟩

theorem not_sfx_start_end {l : List Char} :
    ¬(sfxL "domains start".data l = true ∧ sfxL "domains end".data l = true) := by
  rintro ⟨h1, h2⟩
  rcases sfxL_ex.mp h1 with ⟨t1, ht1⟩
  rcases sfxL_ex.mp h2 with ⟨t2, ht2⟩
  have e1 : l.getLast? = some 't' := by
    rw [ht1, List.getLast?_append]; rfl
  have e2 : l.getLast? = some 'd' := by
    rw [ht2, List.getLast?_append]; rfl
  rw [e1] at e2
  exact absurd (Option.some.inj e2) (by decide)

theorem hash_of_hash3 {l : List Char} (h : "###".data.isPrefixOf l = true) :
    "#".data.isPrefixOf l = true := by
  rcases isPrefixOf_ex.mp h with ⟨t, ht⟩
  subst ht
  rfl

theorem space_mem_of_sfx_start {l : List Char}
    (h : sfxL "domains start".data l = true) : ' ' ∈ l := by
  rcases sfxL_ex.mp h with ⟨t, ht⟩
  subst ht
  exact List.mem_append_right t (by decide)

/-! ### Cleanliness predicates

A parsed document automatically satisfies these (established below); they
are exactly what makes a document survive a write/parse round trip. -/

/-- A section name that fits on one header line as a single token. -/
def CleanName (n : String) : Prop := ' ' ∉ n.data ∧ '\n' ∉ n.data

/-- An item line as produced by the parser: nonblank, stripped, not a
comment, single line. -/
def CleanItem (e : String) : Prop :=
  e ≠ "" ∧ "#".data.isPrefixOf e.data = false ∧ pyStripL e.data = e.data ∧ '\n' ∉ e.data

/-- A comment line as produced by the parser: starts with `#`, is not a
section delimiter, stripped, single line. -/
def CleanComment (c : String) : Prop :=
  "#".data.isPrefixOf c.data = true
  ∧ ¬("###".data.isPrefixOf c.data = true ∧ sfxL "domains start".data c.data = true)
  ∧ ¬("###".data.isPrefixOf c.data = true ∧ sfxL "domains end".data c.data = true)
  ∧ pyStripL c.data = c.data ∧ '\n' ∉ c.data

/-- Well-formedness of one section entry.  A section named by the empty
string is representable (`###  domains start` parses back to it) but its
body lines are discarded on re-parse, so it must be empty. -/
def WFsec (n : String) (d : SectionData) : Prop :=
  CleanName n ∧ (n = "" → d.items = [] ∧ d.comments = [])
  ∧ (∀ e ∈ d.items, CleanItem e) ∧ (∀ c ∈ d.comments, CleanComment c)

/-- Well-formedness of a document: unique keys, clean sections. -/
def WF (doc : Doc) : Prop :=
  (doc.map Prod.fst).Nodup ∧ ∀ p ∈ doc, WFsec p.1 p.2

instance (n : String) : Decidable (CleanName n) := by
  unfold CleanName
  infer_instance

instance (e : String) : Decidable (CleanItem e) := by
  unfold CleanItem
  infer_instance

instance (c : String) : Decidable (CleanComment c) := by
  unfold CleanComment
  infer_instance

instance (n : String) (d : SectionData) : Decidable (WFsec n d) := by
  unfold WFsec
  infer_instance

instance (doc : Doc) : Decidable (WF doc) := by
  unfold WF
  infer_instance

/-! ### The writer's output, line by line -/

/-- Serialize lines, each terminated by a newline. -/
def linesToChars (ls : List (List Char)) : List Char :=
  (ls.map (fun l => l ++ ['\n'])).flatten

/-- The lines `write_data` emits for one section: a blank line, the header,
the comments, a blank line, the items, a blank line, the footer. -/
def blockLines (name : String) (d : SectionData) : List (List Char) :=
  [[], ("### " ++ name ++ " domains start").data]
    ++ d.comments.map String.data
    ++ [[]]
    ++ d.items.map String.data
    ++ [[], ("### " ++ name ++ " domains end").data]

/-- All lines of the written document. -/
def docLines (doc : Doc) : List (List Char) :=
  (doc.map fun p => blockLines p.1 p.2).flatten

theorem foldl_append_data : ∀ (L : List String) (acc : String),
    (L.foldl (fun r s => r ++ s) acc).data = acc.data ++ (L.map String.data).flatten
  | [], acc => by simp
  | s :: rest, acc => by
    rw [List.foldl_cons, foldl_append_data rest]
    simp [String.data_append]

theorem join_data (L : List String) :
    (String.join L).data = (L.map String.data).flatten := by
  show (L.foldl (fun r s => r ++ s) "").data = _
  rw [foldl_append_data]
  rfl

theorem endNl_data {l : String} (h : '\n' ∉ l.data) :
    (endNl l).data = l.data ++ ['\n'] := by
  unfold endNl
  have hs : sfxL ['\n'] l.data = false := by
    cases hs : sfxL ['\n'] l.data
    · rfl
    · rcases sfxL_ex.mp hs with ⟨t, ht⟩
      exact absurd (by rw [ht]; exact List.mem_append_right t (by decide)) h
  rw [hs]
  simp [String.data_append]

theorem linesToChars_append (a b : List (List Char)) :
    linesToChars (a ++ b) = linesToChars a ++ linesToChars b := by
  unfold linesToChars
  rw [List.map_append, List.flatten_append]

theorem write_section_data {n : String} {d : SectionData}
    (hc : ∀ c ∈ d.comments, '\n' ∉ c.data) (hi : ∀ e ∈ d.items, '\n' ∉ e.data) :
    (write_section n d).data = linesToChars (blockLines n d) := by
  have hcm : (d.comments.map endNl).map String.data
      = d.comments.map (fun c => c.data ++ ['\n']) := by
    rw [List.map_map]
    exact List.map_congr_left fun c hcmem => endNl_data (hc c hcmem)
  have him : (d.items.map endNl).map String.data
      = d.items.map (fun e => e.data ++ ['\n']) := by
    rw [List.map_map]
    exact List.map_congr_left fun e hemem => endNl_data (hi e hemem)
  unfold write_section blockLines
  rw [linesToChars_append, linesToChars_append, linesToChars_append, linesToChars_append]
  unfold linesToChars
  rw [List.map_map, List.map_map]
  simp only [String.data_append, join_data, hcm, him, List.map_map]
  simp [String.data_append, Function.comp_def]

theorem write_data_data {doc : Doc}
    (h : ∀ p ∈ doc, (∀ c ∈ p.2.comments, '\n' ∉ c.data) ∧ (∀ e ∈ p.2.items, '\n' ∉ e.data)) :
    (write_data doc).data = linesToChars (docLines doc) := by
  induction doc with
  | nil => rfl
  | cons p rest ih =>
    have hp := h p (List.mem_cons_self _ _)
    have hrest : ∀ q ∈ rest, (∀ c ∈ q.2.comments, '\n' ∉ c.data) ∧ (∀ e ∈ q.2.items, '\n' ∉ e.data) :=
      fun q hq => h q (List.mem_cons_of_mem _ hq)
    unfold write_data docLines
    rw [List.map_cons, List.map_cons, List.flatten_cons, linesToChars_append]
    have e1 : (String.join (write_section p.1 p.2 :: rest.map fun q => write_section q.1 q.2)).data
        = (write_section p.1 p.2).data ++ (String.join (rest.map fun q => write_section q.1 q.2)).data := by
      rw [join_data, join_data, List.map_cons, List.flatten_cons]
    rw [e1, write_section_data hp.1 hp.2]
    have ih2 := ih hrest
    unfold write_data docLines at ih2
    rw [ih2]

theorem splitLines_linesToChars {ls : List (List Char)} (rest : List Char)
    (h : ∀ l ∈ ls, '\n' ∉ l) :
    splitLines (linesToChars ls ++ rest) = ls ++ splitLines rest := by
  induction ls with
  | nil => simp [linesToChars]
  | cons x xs ih =>
    have hx : '\n' ∉ x := h x (List.mem_cons_self _ _)
    have hxs : ∀ l ∈ xs, '\n' ∉ l := fun l hl => h l (List.mem_cons_of_mem _ hl)
    have e : linesToChars (x :: xs) ++ rest = x ++ '\n' :: (linesToChars xs ++ rest) := by
      unfold linesToChars
      simp
    rw [e]
    show splitOnChar '\n' _ = _
    rw [splitOnChar_append '\n' _ hx]
    rw [show splitOnChar '\n' (linesToChars xs ++ rest) = splitLines (linesToChars xs ++ rest) from rfl]
    rw [ih hxs]
    simp

theorem pyReadlines_linesToChars {ls : List (List Char)} (h : ∀ l ∈ ls, '\n' ∉ l) :
    pyReadlines (linesToChars ls) = ls := by
  have h1 : splitLines (linesToChars ls) = ls ++ [[]] := by
    have h2 := splitLines_linesToChars [] h
    rw [List.append_nil] at h2
    rw [h2]
    rfl
  unfold pyReadlines
  rw [h1]
  simp [List.getLast?_concat, List.dropLast_concat]

/-! ### Behavior of one parse step on each kind of line -/

theorem parse_step_blank (st : ParseState) : parse_step st [] = st := rfl

/-- The header characters, as the writer lays them out. -/
theorem header_data (n : String) :
    ("### " ++ n ++ " domains start").data
      = "###".data ++ ' ' :: (n.data ++ ' ' :: "domains start".data) := by
  rw [String.data_append, String.data_append]
  have e1 : "### ".data = "###".data ++ [' '] := by decide
  have e2 : " domains start".data = ' ' :: "domains start".data := by decide
  rw [e1, e2]
  simp

theorem footer_data (n : String) :
    ("### " ++ n ++ " domains end").data
      = "###".data ++ ' ' :: (n.data ++ ' ' :: "domains end".data) := by
  rw [String.data_append, String.data_append]
  have e1 : "### ".data = "###".data ++ [' '] := by decide
  have e2 : " domains end".data = ' ' :: "domains end".data := by decide
  rw [e1, e2]
  simp

theorem delim_noEdge {n : String} {tail : List Char} {x : Char}
    (hx : isPySpace x = false) (htail : tail.getLast? = some x) :
    noEdge isPySpace ("###".data ++ ' ' :: (n.data ++ ' ' :: tail)) := by
  constructor
  · intro c hc
    rw [List.head?_append] at hc
    have hcx : '#' = c := by simpa using hc
    rw [← hcx]
    rfl
  · intro c hc
    have e : "###".data ++ ' ' :: (n.data ++ ' ' :: tail)
        = ("###".data ++ ' ' :: n.data ++ [' ']) ++ tail := by simp
    rw [e, List.getLast?_append, htail] at hc
    have hcx : x = c := by simpa using hc
    rw [← hcx]
    exact hx

theorem parse_step_header {n : String} (st : ParseState) (hn : ' ' ∉ n.data) :
    parse_step st (("### " ++ n ++ " domains start").data)
      = ⟨updAssoc n ⟨[], []⟩ st.result, some n⟩ := by
  rw [header_data]
  have hstrip : pyStripL ("###".data ++ ' ' :: (n.data ++ ' ' :: "domains start".data))
      = "###".data ++ ' ' :: (n.data ++ ' ' :: "domains start".data) :=
    pyStripL_eq_self (delim_noEdge (x := 't') (by decide) (by decide))
  have hpfx : "###".data.isPrefixOf
      ("###".data ++ ' ' :: (n.data ++ ' ' :: "domains start".data)) = true :=
    isPrefixOf_ex.mpr ⟨_, rfl⟩
  have hsfx : sfxL "domains start".data
      ("###".data ++ ' ' :: (n.data ++ ' ' :: "domains start".data)) = true := by
    apply sfxL_ex.mpr
    exact ⟨"###".data ++ ' ' :: n.data ++ [' '], by simp⟩
  have hsplit : splitOnChar ' ' ("###".data ++ ' ' :: (n.data ++ ' ' :: "domains start".data))
      = "###".data :: n.data :: splitOnChar ' ' ("domains start".data) := by
    rw [splitOnChar_append ' ' _ (by decide), splitOnChar_append ' ' _ hn]
  unfold parse_step
  rw [hstrip]
  simp only [hpfx, hsfx, Bool.true_and, if_true, hsplit]
  rfl

theorem parse_step_footer {n : String} (st : ParseState) :
    parse_step st (("### " ++ n ++ " domains end").data)
      = ⟨st.result, none⟩ := by
  rw [footer_data]
  have hstrip : pyStripL ("###".data ++ ' ' :: (n.data ++ ' ' :: "domains end".data))
      = "###".data ++ ' ' :: (n.data ++ ' ' :: "domains end".data) :=
    pyStripL_eq_self (delim_noEdge (x := 'd') (by decide) (by decide))
  have hpfx : "###".data.isPrefixOf
      ("###".data ++ ' ' :: (n.data ++ ' ' :: "domains end".data)) = true :=
    isPrefixOf_ex.mpr ⟨_, rfl⟩
  have hsfxe : sfxL "domains end".data
      ("###".data ++ ' ' :: (n.data ++ ' ' :: "domains end".data)) = true := by
    apply sfxL_ex.mpr
    exact ⟨"###".data ++ ' ' :: n.data ++ [' '], by simp⟩
  have hsfxs : sfxL "domains start".data
      ("###".data ++ ' ' :: (n.data ++ ' ' :: "domains end".data)) = false := by
    cases hs : sfxL "domains start".data ("###".data ++ ' ' :: (n.data ++ ' ' :: "domains end".data))
    · rfl
    · exact absurd ⟨hs, hsfxe⟩ not_sfx_start_end
  unfold parse_step
  rw [hstrip]
  simp only [hpfx, hsfxe, hsfxs, Bool.true_and, Bool.and_false, Bool.false_eq_true,
    if_false, if_true]

theorem data_ne_nil {e : String} (h : e ≠ "") : e.data ≠ [] := by
  intro hd
  exact h (String.ext hd)

theorem parse_step_comment {c nm : String} {res : Doc}
    (hne : nm ≠ "") (hc : CleanComment c) :
    parse_step ⟨res, some nm⟩ c.data
      = ⟨modAssoc nm (fun d => { d with comments := d.comments ++ [c] }) res,
         some nm⟩ := by
  obtain ⟨hpfx, hns, hnf, hstrip, _⟩ := hc
  have hc1 : ("###".data.isPrefixOf c.data && sfxL "domains start".data c.data) = false := by
    rw [Bool.and_eq_false_iff]
    by_cases h3 : "###".data.isPrefixOf c.data = true
    · right
      cases hs : sfxL "domains start".data c.data
      · rfl
      · exact absurd ⟨h3, hs⟩ hns
    · exact .inl (Bool.eq_false_iff.mpr h3)
  have hc2 : ("###".data.isPrefixOf c.data && sfxL "domains end".data c.data) = false := by
    rw [Bool.and_eq_false_iff]
    by_cases h3 : "###".data.isPrefixOf c.data = true
    · right
      cases hs : sfxL "domains end".data c.data
      · rfl
      · exact absurd ⟨h3, hs⟩ hnf
    · exact .inl (Bool.eq_false_iff.mpr h3)
  have htr : truthy (some nm) = true := by
    simp [truthy]
    intro hh
    exact hne (String.ext (by simpa using congrArg String.data hh))
  unfold parse_step
  rw [hstrip]
  simp only [hc1, hc2, hpfx, htr, Bool.and_self, Bool.false_eq_true, if_false,
    Bool.true_and, if_true]

theorem parse_step_item {e nm : String} {res : Doc}
    (hne : nm ≠ "") (he : CleanItem e) :
    parse_step ⟨res, some nm⟩ e.data
      = ⟨modAssoc nm (fun d => { d with items := d.items ++ [e] }) res,
         some nm⟩ := by
  obtain ⟨hnn, hnh, hstrip, _⟩ := he
  have hpfx3 : "###".data.isPrefixOf e.data = false := by
    cases h3 : "###".data.isPrefixOf e.data
    · rfl
    · rw [hash_of_hash3 h3] at hnh
      exact absurd hnh (by simp)
  have htr : truthy (some nm) = true := by
    simp [truthy]
    intro hh
    exact hne (String.ext (by simpa using congrArg String.data hh))
  have hemp : e.data.isEmpty = false := by
    cases hd : e.data with
    | nil => exact absurd hd (data_ne_nil hnn)
    | cons a rest => rfl
  unfold parse_step
  rw [hstrip]
  simp only [hpfx3, hnh, Bool.false_and, Bool.false_eq_true, if_false, hemp,
    Bool.not_false, htr, Bool.true_and, if_true, Bool.and_self]
  rw [hstrip]

theorem foldl_comments_app {nm : String} {pre : Doc} (hpre : nm ∉ pre.map Prod.fst) :
    ∀ (cs : List String) (d : SectionData),
      List.foldl
        (fun a c => modAssoc nm (fun d0 => { d0 with comments := d0.comments ++ [c] }) a)
        (pre ++ [(nm, d)]) cs
        = pre ++ [(nm, { d with comments := d.comments ++ cs })]
  | [], d => by simp
  | c :: cs, d => by
    rw [List.foldl_cons, modAssoc_append_last _ _ hpre, foldl_comments_app hpre cs]
    simp

theorem foldl_items_app {nm : String} {pre : Doc} (hpre : nm ∉ pre.map Prod.fst) :
    ∀ (es : List String) (d : SectionData),
      List.foldl
        (fun a e => modAssoc nm (fun d0 => { d0 with items := d0.items ++ [e] }) a)
        (pre ++ [(nm, d)]) es
        = pre ++ [(nm, { d with items := d.items ++ es })]
  | [], d => by simp
  | e :: es, d => by
    rw [List.foldl_cons, modAssoc_append_last _ _ hpre, foldl_items_app hpre es]
    simp

theorem foldl_parse_comments {nm : String} (hne : nm ≠ "") :
    ∀ (cs : List String) (res : Doc), (∀ c ∈ cs, CleanComment c) →
      List.foldl parse_step ⟨res, some nm⟩ (cs.map String.data)
        = ⟨List.foldl
            (fun a c => modAssoc nm (fun d0 => { d0 with comments := d0.comments ++ [c] }) a)
            res cs,
           some nm⟩
  | [], res, _ => rfl
  | c :: cs, res, h => by
    rw [List.map_cons, List.foldl_cons, List.foldl_cons,
      parse_step_comment hne (h c (List.mem_cons_self _ _)),
      foldl_parse_comments hne cs _ (fun x hx => h x (List.mem_cons_of_mem _ hx))]

theorem foldl_parse_items {nm : String} (hne : nm ≠ "") :
    ∀ (es : List String) (res : Doc), (∀ e ∈ es, CleanItem e) →
      List.foldl parse_step ⟨res, some nm⟩ (es.map String.data)
        = ⟨List.foldl
            (fun a e => modAssoc nm (fun d0 => { d0 with items := d0.items ++ [e] }) a)
            res es,
           some nm⟩
  | [], res, _ => rfl
  | e :: es, res, h => by
    rw [List.map_cons, List.foldl_cons, List.foldl_cons,
      parse_step_item hne (h e (List.mem_cons_self _ _)),
      foldl_parse_items hne es _ (fun x hx => h x (List.mem_cons_of_mem _ hx))]

theorem foldl_blank_single (st : ParseState) :
    List.foldl parse_step st [[]] = st := by
  show parse_step st [] = st
  exact parse_step_blank st

theorem foldl_blank_footer {n : String} (st : ParseState) :
    List.foldl parse_step st [[], ("### " ++ n ++ " domains end").data]
      = ⟨st.result, none⟩ := by
  show parse_step (parse_step st []) _ = _
  rw [parse_step_blank, parse_step_footer]

/-- Parsing the lines the writer emitted for one clean section appends
exactly that section to the accumulated document. -/
theorem parse_block {n : String} {d : SectionData} {pre : Doc}
    (hWF : WFsec n d) (hfresh : n ∉ pre.map Prod.fst) :
    List.foldl parse_step ⟨pre, none⟩ (blockLines n d) = ⟨pre ++ [(n, d)], none⟩ := by
  obtain ⟨⟨hns, _⟩, hemptysec, hitems, hcomments⟩ := hWF
  have s1 : List.foldl parse_step ⟨pre, none⟩ [[], ("### " ++ n ++ " domains start").data]
      = ⟨pre ++ [(n, ⟨[], []⟩)], some n⟩ := by
    show parse_step (parse_step ⟨pre, none⟩ []) _ = _
    rw [parse_step_blank, parse_step_header _ hns, updAssoc_notmem _ hfresh]
  unfold blockLines
  by_cases hn0 : n = ""
  · obtain ⟨hi0, hc0⟩ := hemptysec hn0
    rw [hi0, hc0]
    simp only [List.map_nil, List.append_nil]
    rw [List.foldl_append, List.foldl_append, s1, foldl_blank_single, foldl_blank_footer]
    have hd : d = ⟨[], []⟩ := by
      cases d
      simp only at hi0 hc0
      rw [hi0, hc0]
    rw [hd]
  · rw [List.foldl_append, List.foldl_append, List.foldl_append, List.foldl_append,
      s1, foldl_parse_comments hn0 _ _ hcomments, foldl_comments_app hfresh,
      foldl_blank_single, foldl_parse_items hn0 _ _ hitems, foldl_items_app hfresh,
      foldl_blank_footer]
    cases d
    simp

/-- Parsing all the lines the writer emitted for a clean document appends
the document to the accumulator. -/
theorem parse_doc :
    ∀ (doc : Doc) (pre : Doc), (∀ p ∈ doc, WFsec p.1 p.2) →
      (doc.map Prod.fst).Nodup →
      (∀ k, k ∈ doc.map Prod.fst → k ∉ pre.map Prod.fst) →
      List.foldl parse_step ⟨pre, none⟩ (docLines doc) = ⟨pre ++ doc, none⟩
  | [], pre, _, _, _ => by simp [docLines]
  | p :: rest, pre, hWF, hnodup, hfresh => by
    unfold docLines
    rw [List.map_cons, List.flatten_cons, List.foldl_append]
    have hp : WFsec p.1 p.2 := hWF p (List.mem_cons_self _ _)
    have hpf : p.1 ∉ pre.map Prod.fst := hfresh p.1 (by simp)
    rw [parse_block hp hpf]
    rw [List.map_cons, List.nodup_cons] at hnodup
    have hfresh2 : ∀ k, k ∈ rest.map Prod.fst → k ∉ (pre ++ [(p.1, p.2)]).map Prod.fst := by
      intro k hk
      rw [List.map_append, List.mem_append]
      rintro (hmem | hmem)
      · exact hfresh k (by rw [List.map_cons]; exact List.mem_cons_of_mem _ hk) hmem
      · simp at hmem
        rw [hmem] at hk
        exact hnodup.1 hk
    have := parse_doc rest (pre ++ [(p.1, p.2)])
      (fun q hq => hWF q (List.mem_cons_of_mem _ hq)) hnodup.2 hfresh2
    unfold docLines at this
    rw [this]
    simp

/-- Round trip: parsing what the writer produced for a well-formed document
recovers the document exactly. -/
theorem parse_write {doc : Doc} (h : WF doc) : parse_target (write_data doc) = doc := by
  obtain ⟨hnodup, hsec⟩ := h
  have hnl : ∀ l ∈ docLines doc, '\n' ∉ l := by
    intro l hl
    unfold docLines at hl
    rw [List.mem_flatten] at hl
    rcases hl with ⟨ls, hls, hlm⟩
    rw [List.mem_map] at hls
    rcases hls with ⟨p, hp, hbl⟩
    obtain ⟨⟨hpn1, hpn2⟩, _, hit, hcm⟩ := hsec p hp
    rw [← hbl] at hlm
    unfold blockLines at hlm
    have hhdr : l = ("### " ++ p.1 ++ " domains start").data → '\n' ∉ l := by
      intro h1
      rw [h1, header_data]
      intro hmem
      rcases List.mem_append.mp hmem with hh | hh
      · exact absurd hh (by decide)
      · rcases List.mem_cons.mp hh with hh | hh
        · exact absurd hh (by decide)
        · rcases List.mem_append.mp hh with hh | hh
          · exact hpn2 hh
          · exact absurd hh (by decide)
    have hftr : l = ("### " ++ p.1 ++ " domains end").data → '\n' ∉ l := by
      intro h1
      rw [h1, footer_data]
      intro hmem
      rcases List.mem_append.mp hmem with hh | hh
      · exact absurd hh (by decide)
      · rcases List.mem_cons.mp hh with hh | hh
        · exact absurd hh (by decide)
        · rcases List.mem_append.mp hh with hh | hh
          · exact hpn2 hh
          · exact absurd hh (by decide)
    rcases List.mem_append.mp hlm with hlm | hlm
    · rcases List.mem_append.mp hlm with hlm | hlm
      · rcases List.mem_append.mp hlm with hlm | hlm
        · rcases List.mem_append.mp hlm with hlm | hlm
          · rcases List.mem_cons.mp hlm with h1 | hlm
            · rw [h1]; simp
            · rcases List.mem_cons.mp hlm with h1 | hlm
              · exact hhdr h1
              · simp at hlm
          · rcases List.mem_map.mp hlm with ⟨c, hcmem, hdata⟩
            rw [← hdata]
            exact (hcm c hcmem).2.2.2.2
        · rcases List.mem_cons.mp hlm with h1 | hlm
          · rw [h1]; simp
          · simp at hlm
      · rcases List.mem_map.mp hlm with ⟨e, hemem, hdata⟩
        rw [← hdata]
        exact (hit e hemem).2.2.2
    · rcases List.mem_cons.mp hlm with h1 | hlm
      · rw [h1]; simp
      · rcases List.mem_cons.mp hlm with h1 | hlm
        · exact hftr h1
        · simp at hlm
  have hdd : (write_data doc).data = linesToChars (docLines doc) :=
    write_data_data (fun p hp => by
      obtain ⟨_, _, hit, hcm⟩ := hsec p hp
      exact ⟨fun c hc => (hcm c hc).2.2.2.2, fun e he => (hit e he).2.2.2⟩)
  unfold parse_target
  rw [hdd, pyReadlines_linesToChars hnl]
  rw [parse_doc doc [] hsec hnodup (by intro k _ hk; simp at hk)]
  simp

/-! ### The parser only ever produces well-formed documents -/

theorem self_mem_keys_updAssoc (k : String) (v : SectionData) :
    ∀ l : Doc, k ∈ (updAssoc k v l).map Prod.fst
  | [] => by simp [updAssoc]
  | (k', v') :: rest => by
    by_cases h0 : k' = k
    · simp [updAssoc, h0]
    · simp only [updAssoc, if_neg h0, List.map_cons, List.mem_cons]
      exact .inr (self_mem_keys_updAssoc k v rest)

theorem lookup_mem {k : String} {d : SectionData} :
    ∀ {l : Doc}, lookupAssoc k l = some d → (k, d) ∈ l
  | [], h => by simp [lookupAssoc] at h
  | (k', v') :: rest, h => by
    by_cases h0 : k' = k
    · simp only [lookupAssoc, if_pos h0, Option.some.injEq] at h
      rw [← h0, ← h]
      exact List.mem_cons_self _ _
    · simp only [lookupAssoc, if_neg h0] at h
      exact List.mem_cons_of_mem _ (lookup_mem h)

/-- Invariant of the parser loop state. -/
def ParseInv (st : ParseState) : Prop :=
  WF st.result ∧
    ∀ n, st.current = some n → CleanName n ∧ n ∈ st.result.map Prod.fst

theorem parse_step_inv {st : ParseState} {raw : List Char}
    (hInv : ParseInv st) (hnl : '\n' ∉ raw) : ParseInv (parse_step st raw) := by
  obtain ⟨⟨hnodup, hsec⟩, hcur⟩ := hInv
  unfold parse_step
  set line := pyStripL raw with hline
  have hlnl : '\n' ∉ line := fun hmem => hnl (mem_pyStripL hmem)
  have hstripline : pyStripL line = line := by rw [hline]; exact pyStripL_idem raw
  by_cases h1 : ("###".data.isPrefixOf line && sfxL "domains start".data line) = true
  · rw [if_pos h1]
    cases hg : (splitOnChar ' ' line).get? 1 with
    | none => exact ⟨⟨hnodup, hsec⟩, hcur⟩
    | some nm =>
      have hmemnm := List.get?_mem hg
      have hnmsp : ' ' ∉ nm := fun hsp =>
        (mem_splitOnChar ' ' line hmemnm ' ' hsp).2 rfl
      have hnmnl : '\n' ∉ nm := fun hnl2 =>
        hlnl (mem_splitOnChar ' ' line hmemnm '\n' hnl2).1
      refine ⟨⟨nodup_keys_updAssoc _ hnodup, ?_⟩, ?_⟩
      · intro p hp
        rcases mem_updAssoc hp with hp | hp
        · rw [hp]
          exact ⟨⟨hnmsp, hnmnl⟩, fun _ => ⟨rfl, rfl⟩,
            fun e he => absurd he (List.not_mem_nil e),
            fun c hc => absurd hc (List.not_mem_nil c)⟩
        · exact hsec p hp
      · intro n hn
        have : n = String.mk nm := by
          simpa using hn.symm
        rw [this]
        exact ⟨⟨hnmsp, hnmnl⟩, self_mem_keys_updAssoc _ _ _⟩
  · rw [if_neg h1]
    by_cases h2 : ("###".data.isPrefixOf line && sfxL "domains end".data line) = true
    · rw [if_pos h2]
      exact ⟨⟨hnodup, hsec⟩, fun n hn => by simp at hn⟩
    · rw [if_neg h2]
      by_cases h3 : ("#".data.isPrefixOf line && truthy st.current) = true
      · rw [if_pos h3]
        rw [Bool.and_eq_true] at h3
        cases hc : st.current with
        | none => exact ⟨⟨hnodup, hsec⟩, fun n hn => by rw [hc] at hn; simp at hn⟩
        | some nm =>
          have hcn := hcur nm hc
          have hnm0 : nm ≠ "" := by
            intro hh
            rw [hc, hh] at h3
            simp [truthy] at h3
          refine ⟨⟨?_, ?_⟩, ?_⟩
          · rw [keys_modAssoc]
            exact hnodup
          · intro p hp
            rcases mem_modAssoc hp with hp | ⟨d, hd, hpd⟩
            · exact hsec p hp
            · rw [hpd]
              obtain ⟨hcl1, hcl2, hcl3, hcl4⟩ := hsec (nm, d) hd
              refine ⟨hcl1, fun hh => absurd hh hnm0, hcl3, ?_⟩
              intro c hcm
              rcases List.mem_append.mp hcm with hcm | hcm
              · exact hcl4 c hcm
              · rcases List.mem_cons.mp hcm with hcm | hcm
                · rw [hcm]
                  refine ⟨h3.1, ?_, ?_, hstripline, hlnl⟩
                  · intro hcontr
                    exact absurd (by rw [Bool.and_eq_true]; exact hcontr) h1
                  · intro hcontr
                    exact absurd (by rw [Bool.and_eq_true]; exact hcontr) h2
                · exact absurd hcm (List.not_mem_nil c)
          · intro n hn
            have hn2 : some nm = some n := hn
            have hnnm : n = nm := (Option.some.inj hn2).symm
            show CleanName n ∧ n ∈ (modAssoc nm
              (fun d => { d with comments := d.comments ++ [String.mk line] })
              st.result).map Prod.fst
            rw [hnnm, keys_modAssoc]
            exact hcn
      · rw [if_neg h3]
        by_cases h4 : (!line.isEmpty && truthy st.current) = true
        · rw [if_pos h4]
          rw [Bool.and_eq_true] at h4
          cases hc : st.current with
          | none => exact ⟨⟨hnodup, hsec⟩, fun n hn => by rw [hc] at hn; simp at hn⟩
          | some nm =>
            have hcn := hcur nm hc
            have hnm0 : nm ≠ "" := by
              intro hh
              rw [hc, hh] at h4
              simp [truthy] at h4
            have hpfx : "#".data.isPrefixOf line = false := by
              cases hpp : "#".data.isPrefixOf line
              · rfl
              · rw [hc] at h3
                rw [hc] at h4
                exact absurd (by rw [Bool.and_eq_true]; exact ⟨hpp, h4.2⟩) h3
            have hlne : line ≠ [] := by
              intro hh
              rw [hh] at h4
              simp at h4
            refine ⟨⟨?_, ?_⟩, ?_⟩
            · rw [keys_modAssoc]
              exact hnodup
            · intro p hp
              rcases mem_modAssoc hp with hp | ⟨d, hd, hpd⟩
              · exact hsec p hp
              · rw [hpd]
                obtain ⟨hcl1, hcl2, hcl3, hcl4⟩ := hsec (nm, d) hd
                refine ⟨hcl1, fun hh => absurd hh hnm0, ?_, hcl4⟩
                intro e hem
                rcases List.mem_append.mp hem with hem | hem
                · exact hcl3 e hem
                · rcases List.mem_cons.mp hem with hem | hem
                  · rw [hem, hstripline]
                    refine ⟨?_, hpfx, hstripline, hlnl⟩
                    intro hh
                    exact hlne (by
                      have := congrArg String.data hh
                      simpa using this)
                  · exact absurd hem (List.not_mem_nil e)
            · intro n hn
              have hn2 : some nm = some n := hn
              have hnnm : n = nm := (Option.some.inj hn2).symm
              show CleanName n ∧ n ∈ (modAssoc nm
                (fun d => { d with items := d.items ++ [String.mk (pyStripL line)] })
                st.result).map Prod.fst
              rw [hnnm, keys_modAssoc]
              exact hcn
        · rw [if_neg h4]
          exact ⟨⟨hnodup, hsec⟩, hcur⟩

theorem foldl_parse_inv :
    ∀ (lines : List (List Char)) {st : ParseState}, ParseInv st →
      (∀ l ∈ lines, '\n' ∉ l) → ParseInv (List.foldl parse_step st lines)
  | [], _, hInv, _ => hInv
  | l :: rest, st, hInv, hnl => by
    rw [List.foldl_cons]
    exact foldl_parse_inv rest
      (parse_step_inv hInv (hnl l (List.mem_cons_self _ _)))
      (fun x hx => hnl x (List.mem_cons_of_mem _ hx))

theorem mem_pyReadlines_no_nl {content : String} {l : List Char}
    (h : l ∈ pyReadlines content.data) : '\n' ∉ l := by
  unfold pyReadlines at h
  have hmem : l ∈ splitLines content.data := by
    by_cases hc : (splitLines content.data).getLast? = some []
    · rw [if_pos hc] at h
      exact List.dropLast_subset _ h
    · rw [if_neg hc] at h
      exact h
  intro hnl
  exact (mem_splitOnChar '\n' content.data hmem '\n' hnl).2 rfl

/-- Whatever the target file contains, the parsed document is well formed. -/
theorem parse_target_WF (content : String) : WF (parse_target content) := by
  unfold parse_target
  have base : ParseInv ⟨[], none⟩ := ⟨⟨by simp, by simp⟩, fun n hn => by simp at hn⟩
  exact (foldl_parse_inv _ base (fun l hl => mem_pyReadlines_no_nl hl)).1

/-! ### Characterization of the merge -/

theorem main_core_others {s k : String} (hk : k ≠ s) (N : List String) (doc : Doc) :
    lookupAssoc k (main_core s N doc).1 = lookupAssoc k doc := by
  unfold main_core
  cases hls : lookupAssoc s doc with
  | some d =>
    simp only [hls]
    rw [lookup_modAssoc_ne _ hk]
  | none =>
    simp only [hls]
    rw [lookup_modAssoc_ne _ hk, lookup_updAssoc_ne _ hk]

theorem main_core_self (s : String) (N : List String) (doc : Doc) :
    lookupAssoc s (main_core s N doc).1
      = some ⟨sorted_union (((lookupAssoc s doc).map SectionData.items).getD []) N,
              ((lookupAssoc s doc).map SectionData.comments).getD []⟩ := by
  unfold main_core
  cases hls : lookupAssoc s doc with
  | some d =>
    simp only [hls]
    rw [lookup_modAssoc_self, hls]
    rfl
  | none =>
    simp only [hls]
    rw [lookup_modAssoc_self, lookup_updAssoc_self]
    rfl

theorem main_core_delta (s : String) (N : List String) (doc : Doc) :
    (main_core s N doc).2
      = ((sorted_union (((lookupAssoc s doc).map SectionData.items).getD []) N).length : Int)
        - (((lookupAssoc s doc).map SectionData.items).getD []).length := by
  unfold main_core
  cases hls : lookupAssoc s doc with
  | some d => simp [hls]
  | none => simp [hls, lookup_updAssoc_self]

theorem lookup_none_not_mem {k : String} {l : Doc}
    (h : lookupAssoc k l = none) : k ∉ l.map Prod.fst := by
  intro hmem
  rcases lookup_eq_some_of_mem_keys hmem with ⟨d, hd⟩
  rw [h] at hd
  exact Option.noConfusion hd

/-- Merging clean entries into a clean section name preserves document
well-formedness. -/
theorem main_core_WF {doc : Doc} {s : String} {N : List String}
    (hWF : WF doc) (hs : CleanName s) (hs0 : s ≠ "")
    (hN : ∀ e ∈ N, CleanItem e) :
    WF (main_core s N doc).1 := by
  obtain ⟨hnodup, hsec⟩ := hWF
  unfold main_core
  cases hls : lookupAssoc s doc with
  | some d =>
    simp only [hls]
    constructor
    · rw [keys_modAssoc]
      exact hnodup
    · intro p hp
      rcases mem_modAssoc hp with hp | ⟨d2, hd2, hpd⟩
      · exact hsec p hp
      · rw [hpd]
        obtain ⟨_, _, _, hcm2⟩ := hsec (s, d2) hd2
        refine ⟨hs, fun hh => absurd hh hs0, ?_, hcm2⟩
        intro e he
        rw [mem_sorted_union] at he
        rcases he with he | he
        · have hmemd := lookup_mem hls
          obtain ⟨_, _, hit, _⟩ := hsec (s, d) hmemd
          apply hit
          simpa [hls] using he
        · exact hN e he
  | none =>
    simp only [hls]
    have hnotmem : s ∉ doc.map Prod.fst := lookup_none_not_mem hls
    constructor
    · rw [keys_modAssoc]
      exact nodup_keys_updAssoc _ hnodup
    · intro p hp
      rcases mem_modAssoc hp with hp | ⟨d2, hd2, hpd⟩
      · rcases mem_updAssoc hp with hp | hp
        · rw [hp]
          exact ⟨hs, fun hh => absurd hh hs0,
            fun e he => absurd he (List.not_mem_nil e),
            fun c hc => absurd hc (List.not_mem_nil c)⟩
        · exact hsec p hp
      · rcases mem_updAssoc hd2 with hd2 | hd2
        · have hd2' : d2 = ⟨[], []⟩ := congrArg Prod.snd hd2
          rw [hpd, hd2']
          refine ⟨hs, fun hh => absurd hh hs0, ?_,
            fun c hc => absurd hc (List.not_mem_nil c)⟩
          intro e he
          rw [mem_sorted_union] at he
          rcases he with he | he
          · rw [lookup_updAssoc_self] at he
            simp at he
          · exact hN e he
        · exact absurd (by
            have : s ∈ doc.map Prod.fst := by
              rw [List.mem_map]
              exact ⟨(s, d2), hd2, rfl⟩
            exact this) hnotmem

/-- A sorted duplicate-free list already containing all new entries absorbs
a further union with them. -/
theorem sorted_union_absorb {base2 N : List String}
    (hsorted : base2.Sorted strLe) (hnodup : base2.Nodup)
    (hsub : ∀ e ∈ N, e ∈ base2) : sorted_union base2 N = base2 := by
  apply List.eq_of_perm_of_sorted _ (sorted_union_sorted _ _) hsorted
  rw [List.perm_ext_iff_of_nodup (sorted_union_nodup _ _) hnodup]
  intro a
  rw [mem_sorted_union]
  exact ⟨fun h => h.elim id (hsub a), fun h => .inl h⟩

/-- Re-merging the same entry set into an already merged document changes
nothing and reports a zero delta. -/
theorem main_core_idem (s : String) (N : List String) (doc1 : Doc) :
    (main_core s N (main_core s N doc1).1).1 = (main_core s N doc1).1
    ∧ (main_core s N (main_core s N doc1).1).2 = 0 := by
  set doc2 := (main_core s N doc1).1 with hdoc2
  set base := ((lookupAssoc s doc1).map SectionData.items).getD [] with hbase
  set cm := ((lookupAssoc s doc1).map SectionData.comments).getD [] with hcm
  have hself : lookupAssoc s doc2 = some ⟨sorted_union base N, cm⟩ :=
    main_core_self s N doc1
  have hbase2 : ((lookupAssoc s doc2).map SectionData.items).getD []
      = sorted_union base N := by
    rw [hself]
    rfl
  have habs : sorted_union (sorted_union base N) N = sorted_union base N :=
    sorted_union_absorb (sorted_union_sorted _ _) (sorted_union_nodup _ _)
      (fun e he => mem_sorted_union.mpr (.inr he))
  constructor
  · show (main_core s N doc2).1 = doc2
    unfold main_core
    simp only [hself]
    apply modAssoc_eq_self
    intro d hd
    rw [hself] at hd
    have hd2 : (⟨sorted_union base N, cm⟩ : SectionData) = d := Option.some.inj hd
    rw [← hd2]
    have : ((Option.map SectionData.items (some (⟨sorted_union base N, cm⟩ : SectionData))).getD [])
        = sorted_union base N := rfl
    rw [this, habs]
  · show (main_core s N doc2).2 = 0
    rw [main_core_delta, hbase2, habs]
    omega

/-! ### Spec-side normalization pipeline (refinement target for C6) -/

/-- The normalization pipeline exactly as the specification words it:
truncate to the substring before the first space when one is present, strip
leading and trailing whitespace, then apply every substitution in map
iteration order as a literal whole-string replace, each key's result
feeding the next. -/
def normalize_spec (subs : Subs) (line : String) : String :=
  let t :=
    if line.data.contains ' ' then String.mk (line.data.takeWhile (fun c => c != ' '))
    else line
  let t2 := pyStrip t
  subs.foldl (fun l p => pyReplace l p.1 p.2) t2

theorem subs_fold_empty {subs : Subs} (h : ∀ p ∈ subs, p.1 ≠ "") :
    subs.foldl (fun l p => pyReplace l p.1 p.2) "" = "" := by
  induction subs with
  | nil => rfl
  | cons p rest ih =>
    rw [List.foldl_cons]
    have h1 : pyReplace "" p.1 p.2 = "" := by
      unfold pyReplace
      rw [if_neg (data_ne_nil (h p (List.mem_cons_self _ _)))]
      rfl
    rw [h1]
    exact ih (fun q hq => h q (List.mem_cons_of_mem _ hq))

/-! ### The claims -/

/-- C1: the claim says a missing or unparseable `subs.json` during line
normalization aborts the run before any write.  The code disagrees: the
`load_subs` failure raised inside `parse_line` is caught by
`load_new_data`'s blanket `except`, which returns the empty entry set, and
the run proceeds to rewrite the target.  Evaluation at the failing input:
broken substitution resource, a one-line source file, an empty target. -/
theorem c1_subs_error_absorbed :
    load_new_data (.error "subs.json missing") (some "a.com\n") = []
    ∧ run (.error "subs.json missing") (some "a.com\n") "" "s"
        = .ok ("\n### s domains start\n\n\n### s domains end\n", 0) :=
  ⟨rfl, rfl⟩

/-- C2, counterexample: merging the source line `#foo` twice is not
idempotent.  The first run writes `#foo` as an item line; the second run
re-parses it as a comment, so the second merge adds `#foo` to the items
again: the content changes and the reported delta is `1`, not `0`. -/
theorem c2_counterexample :
    run (.ok []) (some "#foo\n") "" "s"
      = .ok ("\n### s domains start\n\n#foo\n\n### s domains end\n", 1)
    ∧ run (.ok []) (some "#foo\n")
        "\n### s domains start\n\n#foo\n\n### s domains end\n" "s"
      = .ok ("\n### s domains start\n#foo\n\n#foo\n\n### s domains end\n", 1)
    ∧ ("\n### s domains start\n#foo\n\n#foo\n\n### s domains end\n" : String)
        ≠ "\n### s domains start\n\n#foo\n\n### s domains end\n"
    ∧ (1 : Int) ≠ 0 :=
  ⟨rfl, rfl, by decide, by decide⟩

/-- C2, amended: the double run is idempotent (identical content after the
second run, zero second delta) provided every normalized new entry is a
clean item line (nonempty, stripped, newline-free, not starting with `#`)
and the section name is a nonempty single-line token, as the CLI layer
guarantees.  The pre-existing target content is arbitrary. -/
theorem c2_idempotent (subs : Except String Subs) (src : Option String)
    (t s : String)
    (hN : ∀ e ∈ load_new_data subs src, CleanItem e)
    (hs : CleanName s) (hs0 : s ≠ "")
    (c1 : String) (d1 : Int)
    (h1 : run subs src t s = .ok (c1, d1)) :
    run subs src c1 s = .ok (c1, 0) := by
  have h1' : Except.ok (ε := String)
      (write_data (main_core s (load_new_data subs src) (parse_target t)).1,
       (main_core s (load_new_data subs src) (parse_target t)).2) = .ok (c1, d1) := h1
  have hpair := Except.ok.inj h1'
  have hc1 : write_data (main_core s (load_new_data subs src) (parse_target t)).1 = c1 :=
    congrArg Prod.fst hpair
  have hWF2 : WF (main_core s (load_new_data subs src) (parse_target t)).1 :=
    main_core_WF (parse_target_WF t) hs hs0 hN
  have hparse : parse_target c1 = (main_core s (load_new_data subs src) (parse_target t)).1 := by
    rw [← hc1]
    exact parse_write hWF2
  show Except.ok
      (write_data (main_core s (load_new_data subs src) (parse_target c1)).1,
       (main_core s (load_new_data subs src) (parse_target c1)).2) = .ok (c1, 0)
  rw [hparse]
  rcases main_core_idem s (load_new_data subs src) (parse_target t) with ⟨hi1, hi2⟩
  rw [hi1, hi2, hc1]

/-- C2, witness: a concrete second run over the content produced by a
first run changes nothing and reports delta zero. -/
theorem c2_idempotent_witness :
    run (.ok []) (some "b.com\na.com\n")
      "\n### list domains start\n\na.com\nb.com\n\n### list domains end\n" "list"
      = .ok ("\n### list domains start\n\na.com\nb.com\n\n### list domains end\n", 0) :=
  c2_idempotent (.ok []) (some "b.com\na.com\n") "" "list"
    (by decide) (by decide) (by decide)
    "\n### list domains start\n\na.com\nb.com\n\n### list domains end\n" 2 rfl

/-- C3, counterexample: a target that the program itself produced (merging
the raw line `#foo` into an empty target) is not a fixed point of
parse-then-write: the `#foo` item line is re-parsed as a comment and
re-written in the comment position. -/
theorem c3_counterexample :
    run (.ok []) (some "#foo\n") "" "s"
      = .ok ("\n### s domains start\n\n#foo\n\n### s domains end\n", 1)
    ∧ write_data (parse_target "\n### s domains start\n\n#foo\n\n### s domains end\n")
        ≠ "\n### s domains start\n\n#foo\n\n### s domains end\n" :=
  ⟨rfl, by decide⟩

/-- C3, amended: parse-then-write is the identity on the writer's output
for every well-formed document — in particular for any document obtained
by parsing a target and merging clean entries under a clean section name,
which covers every run whose normalized entries are ordinary item lines. -/
theorem c3_roundtrip (doc : Doc) (h : WF doc) :
    write_data (parse_target (write_data doc)) = write_data doc := by
  rw [parse_write h]

/-- C3, witness: round trip on a concrete well-formed document. -/
theorem c3_roundtrip_witness :
    write_data (parse_target (write_data [("s", ⟨["a.com"], ["# note"]⟩)]))
      = write_data [("s", ⟨["a.com"], ["# note"]⟩)] :=
  c3_roundtrip [("s", ⟨["a.com"], ["# note"]⟩)] (by decide)

/-- Structure of the merged document's entries: an entry is either carried
over from the parsed document, or the freshly created empty section, or
carries the sorted union as its items. -/
theorem items_of_main_core {s : String} {N : List String} {doc : Doc}
    {p : String × SectionData} (hp : p ∈ (main_core s N doc).1) :
    p ∈ doc ∨ p.2 = (⟨[], []⟩ : SectionData)
      ∨ ∃ base, p.2.items = sorted_union base N := by
  unfold main_core at hp
  cases hls : lookupAssoc s doc with
  | some d =>
    rw [hls] at hp
    simp only at hp
    rcases mem_modAssoc hp with hp | ⟨d2, _, hpd⟩
    · exact .inl hp
    · refine .inr (.inr ⟨((lookupAssoc s doc).map SectionData.items).getD [], ?_⟩)
      rw [hpd]
  | none =>
    rw [hls] at hp
    simp only at hp
    rcases mem_modAssoc hp with hp | ⟨d2, _, hpd⟩
    · rcases mem_updAssoc hp with hp | hp
      · exact .inr (.inl (congrArg Prod.snd hp))
      · exact .inl hp
    · refine .inr (.inr ⟨((lookupAssoc s
        (updAssoc s ⟨[], []⟩ doc)).map SectionData.items).getD [], ?_⟩)
      rw [hpd]

/-- C4, counterexample: the claim quantifies over every section of the
written target, but a section other than the merged one keeps its parsed
item order verbatim; a hand-edited target with an unsorted section stays
unsorted after merging into a different section. -/
theorem c4_counterexample :
    lookupAssoc "t" (main_core "s" ["x"]
        (parse_target "### t domains start\nb\na\n### t domains end\n")).1
      = some ⟨["b", "a"], []⟩
    ∧ ¬ (["b", "a"] : List String).Sorted strLt :=
  ⟨rfl, by decide⟩

/-- C4, amended: after a merge, the merged section's items are in strict
ascending order with no duplicates, other sections keep their parsed item
lists unchanged, and hence every section of the written document is
strictly sorted and duplicate-free whenever the parsed target's sections
already were (for example because the target was produced by this tool). -/
theorem c4_sorted (t s : String) (N : List String)
    (h : ∀ p ∈ parse_target t, p.2.items.Sorted strLt) :
    ∀ p ∈ (main_core s N (parse_target t)).1,
      p.2.items.Sorted strLt ∧ p.2.items.Nodup := by
  intro p hp
  rcases items_of_main_core hp with hmem | hmem | ⟨base, hitems⟩
  · have hsort := h p hmem
    exact ⟨hsort, hsort.nodup⟩
  · rw [hmem]
    exact ⟨List.sorted_nil, List.nodup_nil⟩
  · rw [hitems]
    exact ⟨sorted_union_sorted_lt _ _, sorted_union_nodup _ _⟩

/-- C4, witness: the merged section of a concrete run is strictly sorted. -/
theorem c4_sorted_witness :
    (((lookupAssoc "s" (main_core "s" ["b", "a"] (parse_target "")).1).map
        SectionData.items).getD []).Sorted strLt := by
  have h := c4_sorted "" "s" ["b", "a"] (by decide)
  have hm : ("s", (⟨["a", "b"], []⟩ : SectionData))
      ∈ (main_core "s" ["b", "a"] (parse_target "")).1 := by decide
  have h2 := h _ hm
  have e : ((lookupAssoc "s" (main_core "s" ["b", "a"] (parse_target "")).1).map
      SectionData.items).getD [] = ["a", "b"] := by decide
  rw [e]
  exact h2.1

/-- C5: the merge stores, for the target section, exactly the sorted union
of the existing item list (empty when the section is new) and the new
entries, preserves the section's comments, and reports the post-merge item
count minus the pre-merge item count; the spec's concrete example
evaluates as claimed. -/
theorem c5_union_semantics :
    (∀ (doc : Doc) (s : String) (N : List String),
      lookupAssoc s (main_core s N doc).1
          = some ⟨sorted_union (((lookupAssoc s doc).map SectionData.items).getD []) N,
                  ((lookupAssoc s doc).map SectionData.comments).getD []⟩
      ∧ (∀ x, x ∈ sorted_union (((lookupAssoc s doc).map SectionData.items).getD []) N
            ↔ x ∈ ((lookupAssoc s doc).map SectionData.items).getD [] ∨ x ∈ N)
      ∧ (sorted_union (((lookupAssoc s doc).map SectionData.items).getD []) N).Sorted strLe
      ∧ (main_core s N doc).2
          = ((sorted_union (((lookupAssoc s doc).map SectionData.items).getD []) N).length : Int)
            - (((lookupAssoc s doc).map SectionData.items).getD []).length)
    ∧ main_core "s" ["b.com", "c.com"] [("s", ⟨["a.com", "b.com"], []⟩)]
        = ([("s", ⟨["a.com", "b.com", "c.com"], []⟩)], 1) :=
  ⟨fun doc s N =>
    ⟨main_core_self s N doc, fun _ => mem_sorted_union,
     sorted_union_sorted _ _, main_core_delta s N doc⟩,
   by decide⟩

/-- C6: `parse_line` is the pipeline the spec describes — truncate before
the first space if any, strip, then fold the substitutions in map order —
and the spec's example normalizes as claimed. -/
theorem c6_normalization :
    (∀ (subs : Subs) (line : String), parse_line subs line = normalize_spec subs line)
    ∧ parse_line [] "example.com   # spam source" = "example.com" := by
  constructor
  · intro subs line
    unfold parse_line normalize_spec
    rw [splitOnChar_headD]
  · rfl

/-- C7: an empty or whitespace-only raw line normalizes to the empty
string (for any substitution map with no empty key — an empty key would
make Python's `str.replace` insert text into the empty string), and the
empty string is inserted into the merged section's item set as a valid
member: no filtering happens before insertion. -/
theorem c7_empty_entry :
    (∀ (subs : Subs) (line : String), (∀ p ∈ subs, p.1 ≠ "") →
      (∀ c ∈ line.data, isPySpace c = true) → parse_line subs line = "")
    ∧ (∀ (doc : Doc) (s : String) (N : List String), "" ∈ N →
        ∃ d, lookupAssoc s (main_core s N doc).1 = some d ∧ "" ∈ d.items) := by
  constructor
  · intro subs line hkeys hsp
    show subs.foldl (fun l p => pyReplace l p.1 p.2)
        (pyStrip (if line.data.contains ' '
          then String.mk ((splitOnChar ' ' line.data).headD []) else line)) = ""
    have hall1 : ∀ c ∈ (if line.data.contains ' '
        then String.mk ((splitOnChar ' ' line.data).headD []) else line).data,
        isPySpace c = true := by
      by_cases hc : line.data.contains ' '
      · rw [if_pos hc]
        intro c hcm
        have hcm2 : c ∈ (splitOnChar ' ' line.data).headD [] := hcm
        rw [splitOnChar_headD] at hcm2
        exact hsp c ((List.takeWhile_sublist _).mem hcm2)
      · rw [if_neg hc]
        exact hsp
    have h2 : pyStrip (if line.data.contains ' '
        then String.mk ((splitOnChar ' ' line.data).headD []) else line) = "" :=
      String.ext (pyStripL_all_space hall1)
    rw [h2]
    exact subs_fold_empty hkeys
  · intro doc s N h0
    exact ⟨_, main_core_self s N doc, mem_sorted_union.mpr (.inr h0)⟩

/-- C7, witness: a whitespace-only line normalizes to `""` under a
nontrivial map, and merging a set containing `""` stores `""` as an item. -/
theorem c7_empty_entry_witness :
    parse_line [("a", "b")] " \t " = ""
    ∧ ∃ d, lookupAssoc "s" (main_core "s" [""] []).1 = some d ∧ "" ∈ d.items :=
  ⟨c7_empty_entry.1 [("a", "b")] " \t " (by decide) (by decide),
   c7_empty_entry.2 [] "s" [""] (by decide)⟩

theorem write_data_append (d1 d2 : Doc) :
    (write_data (d1 ++ d2)).data = (write_data d1).data ++ (write_data d2).data := by
  unfold write_data
  rw [join_data, join_data, join_data, List.map_append, List.map_append,
    List.flatten_append]

theorem write_data_cons (p : String × SectionData) (rest : Doc) :
    (write_data (p :: rest)).data
      = (write_section p.1 p.2).data ++ (write_data rest).data := by
  unfold write_data
  rw [join_data, join_data, List.map_cons, List.map_cons, List.flatten_cons]

theorem write_section_split (n : String) (d : SectionData) :
    ∃ a b, (write_section n d).data
      = a ++ (String.join (d.comments.map endNl)).data ++ b := by
  refine ⟨("\n### " ++ n ++ " domains start\n").data,
    ("\n" ++ String.join (d.items.map endNl)
      ++ "\n### " ++ n ++ " domains end\n").data, ?_⟩
  unfold write_section
  simp [String.data_append]

theorem comments_chunk_of_lookup {doc : Doc} {n : String} {d' : SectionData}
    (h : lookupAssoc n doc = some d') :
    ∃ a b, (write_data doc).data
      = a ++ (String.join (d'.comments.map endNl)).data ++ b := by
  rcases lookup_split h with ⟨pre, post, heq, _⟩
  rcases write_section_split n d' with ⟨a0, b0, hsec⟩
  refine ⟨(write_data pre).data ++ a0, b0 ++ (write_data post).data, ?_⟩
  rw [heq, write_data_append, write_data_cons, hsec]
  simp

/-- C8: the merge never touches comments: every section present in the
parsed target keeps exactly its comment list in the merged document, and
the written file contains that comment block verbatim (each comment line
newline-terminated, in original order) as a contiguous substring. -/
theorem c8_comment_preservation (t s : String) (N : List String)
    (n : String) (d : SectionData)
    (h : lookupAssoc n (parse_target t) = some d) :
    ∃ d', lookupAssoc n (main_core s N (parse_target t)).1 = some d'
      ∧ d'.comments = d.comments
      ∧ ∃ a b, (write_data (main_core s N (parse_target t)).1).data
          = a ++ (String.join (d.comments.map endNl)).data ++ b := by
  by_cases hns : n = s
  · subst hns
    have hl := main_core_self n N (parse_target t)
    have hcm : ((lookupAssoc n (parse_target t)).map SectionData.comments).getD []
        = d.comments := by
      rw [h]
      rfl
    refine ⟨_, hl, hcm, ?_⟩
    rcases comments_chunk_of_lookup hl with ⟨a, b, hab⟩
    rw [hcm] at hab
    exact ⟨a, b, hab⟩
  · have hl : lookupAssoc n (main_core s N (parse_target t)).1 = some d := by
      rw [main_core_others hns, h]
    exact ⟨d, hl, rfl, comments_chunk_of_lookup hl⟩

/-- C8, witness: a concrete untouched section keeps its two comments, and
the written output contains them as a contiguous block. -/
theorem c8_comment_preservation_witness :
    ∃ d', lookupAssoc "q" (main_core "s" ["y"] (parse_target
        "### q domains start\n# c1\n# c2\nx.com\n### q domains end\n")).1 = some d'
      ∧ d'.comments = ["# c1", "# c2"]
      ∧ ∃ a b, (write_data (main_core "s" ["y"] (parse_target
          "### q domains start\n# c1\n# c2\nx.com\n### q domains end\n")).1).data
          = a ++ (String.join ((["# c1", "# c2"] : List String).map endNl)).data ++ b :=
  c8_comment_preservation
    "### q domains start\n# c1\n# c2\nx.com\n### q domains end\n"
    "s" ["y"] "q" ⟨["x.com"], ["# c1", "# c2"]⟩ (by decide)

/-- C9: any stripped line that starts with `###` and ends with
`domains end` takes the footer branch — it can never match the header
pattern first, because no line ends with both `domains start` and
`domains end` — so it resets the cursor to no-section whatever section is
open and whatever name appears in the line, leaving the result dict
untouched. -/
theorem c9_footer_closes (st : ParseState) (raw : List Char)
    (h1 : "###".data.isPrefixOf (pyStripL raw) = true)
    (h2 : sfxL "domains end".data (pyStripL raw) = true) :
    parse_step st raw = ⟨st.result, none⟩ := by
  have hns : sfxL "domains start".data (pyStripL raw) = false := by
    cases hs : sfxL "domains start".data (pyStripL raw)
    · rfl
    · exact absurd ⟨hs, h2⟩ not_sfx_start_end
  unfold parse_step
  simp only [h1, h2, hns, Bool.true_and, Bool.and_false, Bool.false_eq_true,
    if_false, if_true]

/-- C9, witness: a footer naming section `b` closes the open section `a`. -/
theorem c9_footer_closes_witness :
    parse_step ⟨[("a", ⟨[], []⟩)], some "a"⟩ "### b domains end".data
      = ⟨[("a", ⟨[], []⟩)], none⟩ :=
  c9_footer_closes ⟨[("a", ⟨[], []⟩)], some "a"⟩ _ (by decide) (by decide)

/-- C10: a stripped line that starts with `###` and ends with
`domains start` necessarily contains a space (the suffix itself has one),
so the second space-delimited token always exists: name extraction cannot
raise, the header-error recovery branch is unreachable, and the step
always opens the named section. -/
theorem c10_header_has_token (st : ParseState) (raw : List Char)
    (h1 : "###".data.isPrefixOf (pyStripL raw) = true)
    (h2 : sfxL "domains start".data (pyStripL raw) = true) :
    ' ' ∈ pyStripL raw
    ∧ ∃ nm, (splitOnChar ' ' (pyStripL raw)).get? 1 = some nm
      ∧ parse_step st raw
          = ⟨updAssoc (String.mk nm) ⟨[], []⟩ st.result, some (String.mk nm)⟩ := by
  have hsp : ' ' ∈ pyStripL raw := space_mem_of_sfx_start h2
  rcases splitOnChar_of_mem_sep ' ' hsp with ⟨x, y, rest, hs⟩
  refine ⟨hsp, y, by rw [hs]; rfl, ?_⟩
  unfold parse_step
  simp only [h1, h2, Bool.and_self, if_true, hs]
  rfl

/-- C10, witness: a concrete header line is parsed into its section name. -/
theorem c10_header_has_token_witness :
    ' ' ∈ pyStripL "### b domains start".data
    ∧ ∃ nm, (splitOnChar ' ' (pyStripL "### b domains start".data)).get? 1 = some nm
      ∧ parse_step ⟨[], none⟩ "### b domains start".data
          = ⟨updAssoc (String.mk nm) ⟨[], []⟩ [], some (String.mk nm)⟩ :=
  c10_header_has_token ⟨[], none⟩ _ (by decide) (by decide)

end BuildList
